import Mathlib

/-!
# Blockchain document validation: ledger, mining and validation

A shallow embedding of `blockchain.go`: the block data model, the SHA-256
fingerprint (`calculateHash`), the proof-of-work search (`generateBlock`,
`isHashValid`), the chain validator (`isBlockValid`), the genesis block built in
`main`, the append step of `handleWriteBlock` and the lookup loop of
`handleCheck`.

Conventions:
* Go `int` is modelled as `Int`; arithmetic on it wraps to 64 bits (`wrapInt64`).
* Go `string` is modelled as `String`; `[]byte(s)` is its UTF-8 encoding.
* `time.Now().String()` is an input (`now`).
* The unbounded `for` loop of `generateBlock` takes a fuel argument; running
  out of fuel is the outcome `Outcome.outOfFuel`.
* The library pipeline `hex.EncodeToString(sha256(.))` is the parameter
  `digest` of the definitions; `sha256Hex` is its implementation.
-/

namespace Blockchain

/-! ## Machine integers and formatting -/

/-- Wrap an integer to the range of a signed 64-bit Go `int`. -/
def wrapInt64 (x : Int) : Int := (x + 9223372036854775808) % 18446744073709551616 - 9223372036854775808

/-- Go `a + b` on `int`. -/
def addInt64 (a b : Int) : Int := wrapInt64 (a + b)

/-- The largest Go `int`. -/
def maxInt64 : Int := 9223372036854775807

/-- Digits of a natural number in the given base, as a string (lowercase). -/
def natToString (base n : Nat) : String := ⟨Nat.toDigits base n⟩

/-- Go `strconv.Itoa`. -/
def itoa (i : Int) : String :=
  if i < 0 then "-" ++ natToString 10 i.natAbs else natToString 10 i.natAbs

/-- Go `fmt.Sprintf("%x", i)` for an `int`. -/
def sprintfHex (i : Int) : String :=
  if i < 0 then "-" ++ natToString 16 i.natAbs else natToString 16 i.natAbs

/-- Go `strings.Repeat`: panics (`none`) on a negative count. -/
def stringsRepeat (s : String) (count : Int) : Option String :=
  if count < 0 then none else some ⟨(List.replicate count.toNat s.data).flatten⟩

/-- Go `strings.HasPrefix`. Go compares bytes; for a prefix of ASCII characters, as here,
that is the comparison of the leading characters. -/
def stringsHasPrefix (s pfx : String) : Bool := pfx.data.isPrefixOf s.data

/-! ## SHA-256 (`crypto/sha256`) and `encoding/hex` -/

/-- Addition of 32-bit words, wrapping modulo 2^32. -/
def add32 (a b : Nat) : Nat := (a + b) % 4294967296

/-- Rotate a 32-bit word right by `n` bits. -/
def rotr32 (x n : Nat) : Nat :=
  ((x >>> n) ||| (x <<< (32 - n))) % 4294967296

/-- Bitwise complement of a 32-bit word. -/
def not32 (x : Nat) : Nat := 4294967295 - x % 4294967296

/-- The 64 round constants of SHA-256. -/
def sha256K : List Nat := [
  0x428a2f98, 0x71374491, 0xb5c0fbcf, 0xe9b5dba5, 0x3956c25b, 0x59f111f1, 0x923f82a4, 0xab1c5ed5,
  0xd807aa98, 0x12835b01, 0x243185be, 0x550c7dc3, 0x72be5d74, 0x80deb1fe, 0x9bdc06a7, 0xc19bf174,
  0xe49b69c1, 0xefbe4786, 0x0fc19dc6, 0x240ca1cc, 0x2de92c6f, 0x4a7484aa, 0x5cb0a9dc, 0x76f988da,
  0x983e5152, 0xa831c66d, 0xb00327c8, 0xbf597fc7, 0xc6e00bf3, 0xd5a79147, 0x06ca6351, 0x14292967,
  0x27b70a85, 0x2e1b2138, 0x4d2c6dfc, 0x53380d13, 0x650a7354, 0x766a0abb, 0x81c2c92e, 0x92722c85,
  0xa2bfe8a1, 0xa81a664b, 0xc24b8b70, 0xc76c51a3, 0xd192e819, 0xd6990624, 0xf40e3585, 0x106aa070,
  0x19a4c116, 0x1e376c08, 0x2748774c, 0x34b0bcb5, 0x391c0cb3, 0x4ed8aa4a, 0x5b9cca4f, 0x682e6ff3,
  0x748f82ee, 0x78a5636f, 0x84c87814, 0x8cc70208, 0x90befffa, 0xa4506ceb, 0xbef9a3f7, 0xc67178f2]

/-- Padding: 0x80, zeros up to 56 mod 64, then the bit length as 8 big-endian bytes. -/
def sha256Pad (msg : List Nat) : List Nat :=
  let len := msg.length
  let zeros := (119 - len % 64) % 64
  let bits := len * 8
  msg ++ [128] ++ List.replicate zeros 0 ++
    (List.range 8).map (fun i => (bits >>> (8 * (7 - i))) % 256)

/-- Big-endian 32-bit words of a byte list (length a multiple of 4). -/
def beWords : List Nat → List Nat
  | a :: b :: c :: d :: rest => (a * 16777216 + b * 65536 + c * 256 + d) :: beWords rest
  | _ => []

/-- Extend the message schedule: `w` holds the words so far in reverse order. -/
def sha256Schedule : Nat → List Nat → List Nat
  | 0, w => w
  | n + 1, w =>
    match w with
    | _ :: w2 :: _ :: _ :: _ :: _ :: w7 :: _ :: _ :: _ :: _ :: _ :: _ :: _ :: w15 :: w16 :: _ =>
      let s0 := rotr32 w15 7 ^^^ rotr32 w15 18 ^^^ (w15 >>> 3)
      let s1 := rotr32 w2 17 ^^^ rotr32 w2 19 ^^^ (w2 >>> 10)
      sha256Schedule n (add32 (add32 (add32 w16 s0) w7) s1 :: w)
    | _ => w

/-- The eight working variables of the compression function. -/
structure Sha256State where
  a : Nat
  b : Nat
  c : Nat
  d : Nat
  e : Nat
  f : Nat
  g : Nat
  h : Nat
deriving DecidableEq, Repr

/-- One round of the compression function, on the pair (round constant, schedule word). -/
def sha256Round (s : Sha256State) (kw : Nat × Nat) : Sha256State :=
  let S1 := rotr32 s.e 6 ^^^ rotr32 s.e 11 ^^^ rotr32 s.e 25
  let ch := (s.e &&& s.f) ^^^ (not32 s.e &&& s.g)
  let t1 := add32 (add32 (add32 (add32 s.h S1) ch) kw.1) kw.2
  let S0 := rotr32 s.a 2 ^^^ rotr32 s.a 13 ^^^ rotr32 s.a 22
  let maj := (s.a &&& s.b) ^^^ (s.a &&& s.c) ^^^ (s.b &&& s.c)
  let t2 := add32 S0 maj
  ⟨add32 t1 t2, s.a, s.b, s.c, add32 s.d t1, s.e, s.f, s.g⟩

/-- Compress one 64-byte block into the chaining state. -/
def sha256Block (s : Sha256State) (block : List Nat) : Sha256State :=
  let w := (sha256Schedule 48 (beWords block).reverse).reverse
  let r := (sha256K.zip w).foldl sha256Round s
  ⟨add32 s.a r.a, add32 s.b r.b, add32 s.c r.c, add32 s.d r.d,
   add32 s.e r.e, add32 s.f r.f, add32 s.g r.g, add32 s.h r.h⟩

/-- Compress the first `n` 64-byte blocks of the padded message. -/
def sha256Blocks : Nat → Sha256State → List Nat → Sha256State
  | 0, s, _ => s
  | n + 1, s, bytes => sha256Blocks n (sha256Block s (bytes.take 64)) (bytes.drop 64)

/-- The four big-endian bytes of a 32-bit word. -/
def wordBytes (w : Nat) : List Nat :=
  [w / 16777216 % 256, w / 65536 % 256, w / 256 % 256, w % 256]

/-- The SHA-256 digest of a byte string, as 32 bytes. -/
def sha256Sum (msg : List Nat) : List Nat :=
  let p := sha256Pad msg
  let s := sha256Blocks (p.length / 64) ⟨0x6a09e667, 0xbb67ae85, 0x3c6ef372, 0xa54ff53a,
    0x510e527f, 0x9b05688c, 0x1f83d9ab, 0x5be0cd19⟩ p
  [s.a, s.b, s.c, s.d, s.e, s.f, s.g, s.h].flatMap wordBytes

/-- The UTF-8 encoding of a character. -/
def utf8Bytes (c : Char) : List Nat :=
  let v := c.toNat
  if v < 128 then [v]
  else if v < 2048 then [192 + v / 64, 128 + v % 64]
  else if v < 65536 then [224 + v / 4096, 128 + v / 64 % 64, 128 + v % 64]
  else [240 + v / 262144, 128 + v / 4096 % 64, 128 + v / 64 % 64, 128 + v % 64]

/-- Go `[]byte(s)`. -/
def stringBytes (s : String) : List Nat := s.data.flatMap utf8Bytes

/-- Go `hex.EncodeToString`. -/
def hexEncodeToString (bytes : List Nat) : String :=
  ⟨bytes.flatMap (fun b => [Nat.digitChar (b / 16), Nat.digitChar (b % 16)])⟩

/-- The pipeline of `calculateHash`: `hex.EncodeToString(sha256([]byte(s)))`. -/
def sha256Hex (s : String) : String := hexEncodeToString (sha256Sum (stringBytes s))


/-! ## Data model -/

/-- The constant `difficulty`. -/
def difficulty : Int := 5

/-- A record: author (`Penulis`) and document checksum. -/
structure Transaction where
  Penulis : String
  Checksum : String
deriving DecidableEq, Repr

/-- One item of the blockchain. -/
structure Block where
  Index : Int
  Timestamp : String
  Transactions : Transaction
  Hash : String
  PrevHash : String
  Difficulty : Int
  Nonce : String
deriving DecidableEq, Repr

/-- The decoded JSON payload of a request. -/
structure Message where
  Penulis : String
  Checksum : String
deriving DecidableEq, Repr

/-- The JSON answer of `handleCheck`. -/
structure Response where
  Code : Int
  Message : String
  Data : String
deriving DecidableEq, Repr

/-- The zero value `Block{}`. -/
def Block.zero : Block := ⟨0, "", ⟨"", ""⟩, "", "", 0, ""⟩

/-- What a call of `generateBlock` does within a given number of loop iterations. -/
inductive Outcome where
  | outOfFuel : Outcome
  | panicked : Outcome
  | returned : Block → Outcome
deriving DecidableEq, Repr

/-! ## Hashing, validation, mining -/

/-- The string that `calculateHash` feeds to the digest. -/
def recordString (block : Block) : String :=
  itoa block.Index ++ block.Timestamp ++ block.Transactions.Penulis ++
    block.Transactions.Checksum ++ block.PrevHash ++ block.Nonce

/-- Go `calculateHash`. -/
def calculateHash (digest : String → String) (block : Block) : String :=
  digest (recordString block)

/-- Go `isBlockValid`. -/
def isBlockValid (digest : String → String) (newBlock oldBlock : Block) : Bool :=
  if addInt64 oldBlock.Index 1 ≠ newBlock.Index then false
  else if oldBlock.Hash ≠ newBlock.PrevHash then false
  else if calculateHash digest newBlock ≠ newBlock.Hash then false
  else true

/-- Go `isHashValid`; `none` is the panic of `strings.Repeat`. -/
def isHashValid (hash : String) (difficulty : Int) : Option Bool :=
  match stringsRepeat "0" difficulty with
  | none => none
  | some pfx => some (stringsHasPrefix hash pfx)

/-- The nonce loop of `generateBlock`, `for i := 0; ; i++`, from counter value `i`. -/
def mineLoop (digest : String → String) (newBlock : Block) : Nat → Int → Outcome
  | 0, _ => Outcome.outOfFuel
  | fuel + 1, i =>
    let newBlock := { newBlock with Nonce := sprintfHex i }
    match isHashValid (calculateHash digest newBlock) newBlock.Difficulty with
    | none => Outcome.panicked
    | some false => mineLoop digest newBlock fuel (addInt64 i 1)
    | some true => Outcome.returned { newBlock with Hash := calculateHash digest newBlock }

/-- Go `generateBlock`; `now` is `time.Now().String()`. -/
def generateBlock (digest : String → String) (oldBlock : Block) (data : Message)
    (now : String) (fuel : Nat) : Outcome :=
  let newBlock : Block :=
    { Block.zero with
      Index := addInt64 oldBlock.Index 1
      Timestamp := now
      Transactions := ⟨data.Penulis, data.Checksum⟩
      PrevHash := oldBlock.Hash
      Difficulty := difficulty }
  mineLoop digest newBlock fuel 0

/-- The genesis block built in `main`: its hash field is computed on the block
variable as it is at that point of the composite literal, the zero value. -/
def genesisBlock (digest : String → String) (now : String) : Block :=
  let genesisBlock := Block.zero
  let transaction : Transaction := ⟨"", ""⟩
  ⟨0, now, transaction, calculateHash digest genesisBlock, "", difficulty, ""⟩

/-! ## The ledger: append step and lookup -/

/-- The append step of `handleWriteBlock`:
`if isBlockValid(newBlock, Blockchain[len(Blockchain)-1]) { Blockchain = append(Blockchain, newBlock) }`.
`none` is the index-out-of-range panic on an empty ledger. -/
def appendBlock (digest : String → String) (chain : List Block) (newBlock : Block) :
    Option (List Block) :=
  match chain.getLast? with
  | none => none
  | some t => if isBlockValid digest newBlock t then some (chain ++ [newBlock]) else some chain

/-- Offer a sequence of candidates to the ledger, one append step each. -/
def appendAll (digest : String → String) : List Block → List Block → Option (List Block)
  | chain, [] => some chain
  | chain, c :: cs =>
    match appendBlock digest chain c with
    | none => none
    | some chain1 => appendAll digest chain1 cs

/-- How many of the offered candidates the append step accepted. -/
def acceptedCount (digest : String → String) : List Block → List Block → Nat
  | _, [] => 0
  | chain, c :: cs =>
    match chain.getLast? with
    | none => 0
    | some t =>
      if isBlockValid digest c t then acceptedCount digest (chain ++ [c]) cs + 1
      else acceptedCount digest chain cs

/-- The lookup loop of `handleCheck`, `for i := len(Blockchain) - 1; i > -1; i--`;
the argument is `i + 1`, so `0` is the loop exit and the not-found answer.
`none` is the index-out-of-range panic. -/
def handleCheckLoop (chain : List Block) (m : Message) : Nat → Option Response
  | 0 => some ⟨404, "Error", ""⟩
  | i + 1 =>
    match chain[i]? with
    | none => none
    | some b =>
      let dataSekarang := b.Transactions
      if dataSekarang.Checksum = m.Checksum then some ⟨200, "Succes", dataSekarang.Penulis⟩
      else handleCheckLoop chain m i

/-- Go `handleCheck` after the request body was decoded into `m`. -/
def handleCheck (chain : List Block) (m : Message) : Option Response :=
  handleCheckLoop chain m chain.length

/-! ## Concurrent requests of `handleWriteBlock` -/

/-- Where one request of `handleWriteBlock` stands. -/
inductive Request where
  | start : Message → String → Request
  | mined : Block → Request
  | checked : Block → Request
  | done : Request
  | crashed : Request
deriving DecidableEq, Repr

/-- The shared ledger and the requests in flight. -/
structure World where
  Blockchain : List Block
  requests : List Request
deriving DecidableEq, Repr

/-- One scheduling step of request `who`. The three steps of a request are
(1) the critical section `mutex.Lock(); newBlock := generateBlock(tip, m); mutex.Unlock()`,
(2) the test `isBlockValid(newBlock, tip)`, outside the mutex,
(3) `Blockchain = append(Blockchain, newBlock)`, outside the mutex. -/
def stepRequest (digest : String → String) (fuel : Nat) (w : World) (who : Nat) : World :=
  match w.requests[who]? with
  | none => w
  | some (Request.start m now) =>
    match w.Blockchain.getLast? with
    | none => { w with requests := w.requests.set who Request.crashed }
    | some t =>
      match generateBlock digest t m now fuel with
      | Outcome.returned b => { w with requests := w.requests.set who (Request.mined b) }
      | _ => { w with requests := w.requests.set who Request.crashed }
  | some (Request.mined b) =>
    match w.Blockchain.getLast? with
    | none => { w with requests := w.requests.set who Request.crashed }
    | some t =>
      if isBlockValid digest b t then { w with requests := w.requests.set who (Request.checked b) }
      else { w with requests := w.requests.set who Request.done }
  | some (Request.checked b) =>
    { Blockchain := w.Blockchain ++ [b], requests := w.requests.set who Request.done }
  | some Request.done => w
  | some Request.crashed => w

/-- Run the requests under a schedule: the list of the requests that take the next step. -/
def runSchedule (digest : String → String) (fuel : Nat) (w : World) (schedule : List Nat) : World :=
  schedule.foldl (stepRequest digest fuel) w

/-! ## Predicates of the specification -/

/-- Number of leading `'0'` characters of a hash string. -/
def leadingZeros (hash : String) : Nat := (hash.data.takeWhile (fun c => c == '0')).length

/-- The candidate block that `generateBlock` tries with the given nonce text. -/
def candidate (oldBlock : Block) (data : Message) (now nonce : String) : Block :=
  ⟨addInt64 oldBlock.Index 1, now, ⟨data.Penulis, data.Checksum⟩, "", oldBlock.Hash, difficulty, nonce⟩

/-- Invariant I1 between a block and its successor in the ledger. -/
def Linked (a b : Block) : Prop := b.Index = addInt64 a.Index 1 ∧ b.PrevHash = a.Hash

/-- The block of the claim on separator-free hashing: the last character of the author is
moved to the front of the checksum; a block with an empty author is left as it is. -/
def moveLastChar (b : Block) : Block :=
  match b.Transactions.Penulis.data.getLast? with
  | none => b
  | some c =>
    { b with Transactions :=
        ⟨⟨b.Transactions.Penulis.data.dropLast⟩, ⟨c :: b.Transactions.Checksum.data⟩⟩ }

/-- A collision-free stand-in for the digest: every output starts with five zeros. -/
def zeroPrefixDigest (s : String) : String := "00000" ++ s

/-! ## Concrete blocks -/

/-- A start-up time, in the format of `time.Time.String`. -/
def startTime : String := "2024-05-01 12:00:00.000000001 +0000 UTC m=+0.004000001"

/-- A request time. -/
def requestTime : String := "2024-05-01 12:00:07.123456789 +0000 UTC m=+42.000123456"

/-- The genesis block of a run started at `startTime`. -/
def genesis0 : Block := genesisBlock sha256Hex startTime

/-- The block that mining `("bob", "000794d7")` on `genesis0` at `requestTime` returns. -/
def minedBob : Block :=
  ⟨1, requestTime, ⟨"bob", "000794d7"⟩,
    "00000265c0dafeb51851cff6a9c5eaf0542cc933b9281638d79e23fd55e07e7e",
    "5feceb66ffc86f38d952786c6d696c79c2dbc239dd4e91b46729d73a27fb57e9", 5, "2"⟩

/-- The block that mining `("alice", "0007253e")` on `genesis0` at `requestTime` returns. -/
def minedAlice : Block :=
  ⟨1, requestTime, ⟨"alice", "0007253e"⟩,
    "0000069f722df0f23049df0ca571ce736bd3497405ec7ce7c4eecfd443d960c0",
    "5feceb66ffc86f38d952786c6d696c79c2dbc239dd4e91b46729d73a27fb57e9", 5, "0"⟩

/-- The block that mining `("alice", "00685352")` on `genesis0` at `requestTime` returns. -/
def minedSix : Block :=
  ⟨1, requestTime, ⟨"alice", "00685352"⟩,
    "000000fcf4eb0a0f540efd58e1dc26fb077e389c8b7a1cd1effe79af43b67e76",
    "5feceb66ffc86f38d952786c6d696c79c2dbc239dd4e91b46729d73a27fb57e9", 5, "0"⟩

/-- The genesis block of a run with the stand-in digest. -/
def toyGenesis : Block := genesisBlock zeroPrefixDigest startTime

/-- The block that mining `("alice", "c1")` on `toyGenesis` returns with the stand-in digest. -/
def toyMined : Block :=
  ⟨1, requestTime, ⟨"alice", "c1"⟩,
    zeroPrefixDigest ("1" ++ requestTime ++ "alice" ++ "c1" ++ "000000" ++ "0"), "000000", 5, "0"⟩

/-- The time of a second, concurrent request. -/
def requestTime2 : String := "2024-05-01 12:00:07.123501234 +0000 UTC m=+42.000167901"

/-- The block that mining `("carol", "00047b81")` on `genesis0` at `requestTime2` returns. -/
def minedCarol : Block :=
  ⟨1, requestTime2, ⟨"carol", "00047b81"⟩,
    "0000050530c1f3db520802016f5d606bc16ef15a4327610ec893842c64e9a3cf",
    "5feceb66ffc86f38d952786c6d696c79c2dbc239dd4e91b46729d73a27fb57e9", 5, "0"⟩

/-- Two requests of `handleWriteBlock` in flight on the ledger that holds `genesis0`. -/
def twoRequests : World :=
  ⟨[genesis0], [Request.start ⟨"alice", "0007253e"⟩ requestTime,
    Request.start ⟨"carol", "00047b81"⟩ requestTime2]⟩

/-- A ledger in which the checksum `"f2"` occurs twice. -/
def ledgerWithDuplicate : List Block :=
  [genesis0,
   ⟨1, "", ⟨"a", "f1"⟩, "", "", 5, ""⟩,
   ⟨2, "", ⟨"b", "f2"⟩, "", "", 5, ""⟩,
   ⟨3, "", ⟨"c", "f3"⟩, "", "", 5, ""⟩,
   ⟨4, "", ⟨"d", "f2"⟩, "", "", 5, ""⟩]

/-! ## Lemmas -/

set_option maxRecDepth 1000000


/-- The implementation of SHA-256 on the test vectors of FIPS 180: the empty message,
`"abc"` and the 448-bit message. -/
theorem sha256Hex_test_vectors :
    sha256Hex "" = "e3b0c44298fc1c149afbf4c8996fb92427ae41e4649b934ca495991b7852b855" ∧
    sha256Hex "abc" = "ba7816bf8f01cfea414140de5dae2223b00361a396177a9cb410ff61f20015ad" ∧
    sha256Hex "abcdbcdecdefdefgefghfghighijhijkijkljklmklmnlmnomnopnopq" =
      "248d6a61d20638b8e5c026930c3e6039a33ce45964ff2167f6ecedd419db06c1" := by
  decide

theorem wrapInt64_of_mem {x : Int} (h₁ : -9223372036854775808 ≤ x) (h₂ : x ≤ 9223372036854775807) :
    wrapInt64 x = x := by
  unfold wrapInt64
  omega

theorem addInt64_natCast_one (i : Nat) (h : (i : Int) < maxInt64) :
    addInt64 (i : Int) 1 = ((i + 1 : Nat) : Int) := by
  unfold maxInt64 at h
  unfold addInt64
  rw [wrapInt64_of_mem (by omega) (by omega)]
  push_cast
  rfl

theorem replicate_zero_isPrefixOf (n : Nat) (l : List Char) :
    (List.replicate n '0').isPrefixOf l = true ↔ n ≤ (l.takeWhile (fun c => c == '0')).length := by
  induction n generalizing l with
  | zero => simp
  | succ n ih =>
    cases l with
    | nil => simp [List.replicate_succ]
    | cons c cs =>
      by_cases hc : c = '0'
      · subst hc
        simp [List.replicate_succ, List.takeWhile_cons, ih]
      · have hc' : ¬ ('0' = c) := fun h => hc h.symm
        simp [List.replicate_succ, List.takeWhile_cons, hc, hc']

theorem isHashValid_five (hash : String) :
    isHashValid hash 5 = some (decide (5 ≤ leadingZeros hash)) := by
  have h : stringsRepeat "0" 5 = some ⟨List.replicate 5 '0'⟩ := by decide
  unfold isHashValid
  rw [h]
  simp only [stringsHasPrefix, leadingZeros]
  congr 1
  rw [Bool.eq_iff_iff]
  simp only [replicate_zero_isPrefixOf, decide_eq_true_eq]

theorem calculateHash_setHash (digest : String → String) (b : Block) (h : String) :
    calculateHash digest { b with Hash := h } = calculateHash digest b := rfl

theorem mineLoop_sound (digest : String → String) (fuel : Nat) :
    ∀ (nb : Block) (i : Int) (b : Block), mineLoop digest nb fuel i = Outcome.returned b →
      ∃ s : String,
        b = { nb with Nonce := s, Hash := calculateHash digest { nb with Nonce := s } } ∧
        isHashValid (calculateHash digest { nb with Nonce := s }) nb.Difficulty = some true := by
  induction fuel with
  | zero => intro nb i b h; simp [mineLoop] at h
  | succ fuel ih =>
    intro nb i b h
    simp only [mineLoop] at h
    split at h
    · simp at h
    · obtain ⟨s, hs, hv⟩ := ih _ _ _ h
      exact ⟨s, hs, hv⟩
    · rename_i hv
      refine ⟨sprintfHex i, ?_, hv⟩
      injection h with h
      exact h.symm

theorem mineLoop_least (digest : String → String) (fuel : Nat) :
    ∀ (nb : Block) (i m : Nat), nb.Difficulty = 5 → i ≤ m → (m : Int) ≤ maxInt64 →
      (∀ j : Nat, i ≤ j → j < m →
        ¬ 5 ≤ leadingZeros (calculateHash digest { nb with Nonce := sprintfHex (j : Int) })) →
      5 ≤ leadingZeros (calculateHash digest { nb with Nonce := sprintfHex (m : Int) }) →
      m - i < fuel →
      mineLoop digest nb fuel (i : Int) = Outcome.returned
        { nb with Nonce := sprintfHex (m : Int),
                  Hash := calculateHash digest { nb with Nonce := sprintfHex (m : Int) } } := by
  induction fuel with
  | zero => intro nb i m _ _ _ _ _ h; omega
  | succ fuel ih =>
    intro nb i m hd him hm hlt hv hf
    have e : isHashValid (calculateHash digest { nb with Nonce := sprintfHex (i : Int) })
        nb.Difficulty = some (decide (5 ≤ leadingZeros
          (calculateHash digest { nb with Nonce := sprintfHex (i : Int) }))) := by
      rw [hd, isHashValid_five]
    simp only [mineLoop]
    rw [e]
    by_cases heq : i = m
    · subst heq
      rw [decide_eq_true hv]
    · have hi : i < m := by omega
      rw [decide_eq_false (hlt i (le_refl _) hi)]
      simp only []
      rw [addInt64_natCast_one i (by unfold maxInt64 at *; omega)]
      exact ih { nb with Nonce := sprintfHex (i : Int) } (i + 1) m hd (by omega) hm
        (fun j hj hjm => hlt j (by omega) hjm) hv (by omega)

theorem isBlockValid_eq_true (digest : String → String) (c t : Block) :
    isBlockValid digest c t = true ↔
      addInt64 t.Index 1 = c.Index ∧ t.Hash = c.PrevHash ∧ calculateHash digest c = c.Hash := by
  unfold isBlockValid
  by_cases h1 : addInt64 t.Index 1 = c.Index <;> by_cases h2 : t.Hash = c.PrevHash <;>
    by_cases h3 : calculateHash digest c = c.Hash <;> simp [h1, h2, h3]

theorem take_eq_replicate_zero_iff (n : Nat) (hash : String) :
    hash.data.take n = List.replicate n '0' ↔ n ≤ leadingZeros hash := by
  unfold leadingZeros
  rw [← replicate_zero_isPrefixOf, List.isPrefixOf_iff_prefix, List.prefix_iff_eq_take]
  simp [eq_comm]

theorem generateBlock_sound (digest : String → String) (P : Block) (R : Message)
    (now : String) (fuel : Nat) (b : Block)
    (h : generateBlock digest P R now fuel = Outcome.returned b) :
    ∃ s : String, b = { candidate P R now s with Hash := calculateHash digest (candidate P R now s) } ∧
      5 ≤ leadingZeros (calculateHash digest (candidate P R now s)) := by
  obtain ⟨s, hs, hv⟩ := mineLoop_sound digest fuel _ _ _ h
  refine ⟨s, hs, ?_⟩
  have hv' : isHashValid (calculateHash digest (candidate P R now s)) 5 = some true := hv
  rw [isHashValid_five] at hv'
  simpa using hv'

/-! ## Theorems -/

/-- C1: whenever the nonce search of `generateBlock(P, R)` terminates, the block it
returns is accepted by the validator against `P`. -/
theorem generateBlock_isBlockValid (digest : String → String) (P : Block) (R : Message)
    (now : String) (fuel : Nat) (b : Block)
    (h : generateBlock digest P R now fuel = Outcome.returned b) :
    isBlockValid digest b P = true := by
  obtain ⟨s, hs, -⟩ := generateBlock_sound digest P R now fuel b h
  subst hs
  simp [isBlockValid, candidate, calculateHash, recordString]

theorem generateBlock_isBlockValid_witness :
    generateBlock sha256Hex genesis0 ⟨"bob", "000794d7"⟩ requestTime 3 = Outcome.returned minedBob ∧
      isBlockValid sha256Hex minedBob genesis0 = true :=
  ⟨by decide, generateBlock_isBlockValid sha256Hex genesis0 ⟨"bob", "000794d7"⟩ requestTime 3
    minedBob (by decide)⟩

/-- C3: `isBlockValid(c, t)` is true exactly when `t.Index + 1 = c.Index`,
`t.Hash = c.PrevHash` and `calculateHash(c) = c.Hash`; a candidate with another index or
another previous hash is rejected whatever its other fields are. -/
theorem isBlockValid_iff (digest : String → String) (c t : Block) :
    (isBlockValid digest c t = true ↔
      addInt64 t.Index 1 = c.Index ∧ t.Hash = c.PrevHash ∧ calculateHash digest c = c.Hash) ∧
    (addInt64 t.Index 1 ≠ c.Index → isBlockValid digest c t = false) ∧
    (t.Hash ≠ c.PrevHash → isBlockValid digest c t = false) := by
  refine ⟨isBlockValid_eq_true digest c t, ?_, ?_⟩
  · intro h1
    simp [isBlockValid, h1]
  · intro h2
    unfold isBlockValid
    by_cases h1 : addInt64 t.Index 1 = c.Index <;> simp [h1, h2]

theorem isBlockValid_iff_witness :
    isBlockValid sha256Hex { minedBob with Index := 2 } genesis0 = false ∧
    isBlockValid sha256Hex { minedBob with PrevHash := "" } genesis0 = false :=
  ⟨(isBlockValid_iff sha256Hex { minedBob with Index := 2 } genesis0).2.1 (by decide),
   (isBlockValid_iff sha256Hex { minedBob with PrevHash := "" } genesis0).2.2 (by decide)⟩

/-- C4 (as amended): whenever `generateBlock` returns, the hash of the returned block has
at least `difficulty` = 5 leading `'0'` characters: its first 5 characters are `'0'`. -/
theorem generateBlock_hash_leadingZeros (digest : String → String) (P : Block) (R : Message)
    (now : String) (fuel : Nat) (b : Block)
    (h : generateBlock digest P R now fuel = Outcome.returned b) :
    5 ≤ leadingZeros b.Hash ∧ b.Hash.data.take 5 = ['0', '0', '0', '0', '0'] := by
  obtain ⟨s, hs, hv⟩ := generateBlock_sound digest P R now fuel b h
  subst hs
  exact ⟨hv, (take_eq_replicate_zero_iff 5 _).2 hv⟩

theorem generateBlock_hash_leadingZeros_witness :
    generateBlock sha256Hex genesis0 ⟨"alice", "0007253e"⟩ requestTime 1 =
        Outcome.returned minedAlice ∧
      5 ≤ leadingZeros minedAlice.Hash ∧ minedAlice.Hash.data.take 5 = ['0', '0', '0', '0', '0'] :=
  ⟨by decide, generateBlock_hash_leadingZeros sha256Hex genesis0 ⟨"alice", "0007253e"⟩
    requestTime 1 minedAlice (by decide)⟩

/-- C4 fails as stated: mining `("alice", "00685352")` on `genesis0` at `requestTime`
returns, at the first nonce, a block whose hash has six leading `'0'` characters: the
sixth character is `'0'`. -/
theorem generateBlock_hash_six_zeros :
    generateBlock sha256Hex genesis0 ⟨"alice", "00685352"⟩ requestTime 1 =
        Outcome.returned minedSix ∧
      minedSix.Hash.data[5]? = some '0' ∧ leadingZeros minedSix.Hash = 6 ∧
      ¬ leadingZeros minedSix.Hash = 5 := by
  decide

/-- C8: if some Go `int` value `i >= 0` makes the fingerprint of the candidate with nonce
`Sprintf("%x", i)` start with 5 `'0'` characters, then `generateBlock(P, R)` returns (for
every fuel above the least such value `m`), and the block it returns has nonce
`Sprintf("%x", m)`, hash the fingerprint computed with that nonce (which has at least 5
leading `'0'` characters), index `P.Index + 1`, prevHash `P.Hash`, difficulty 5 and record
`R`; no smaller nonce value satisfies the difficulty predicate. -/
theorem generateBlock_least_nonce (digest : String → String) (P : Block) (R : Message)
    (now : String) (i : Nat) (hi : (i : Int) ≤ maxInt64)
    (hv : 5 ≤ leadingZeros (calculateHash digest (candidate P R now (sprintfHex (i : Int))))) :
    ∃ m : Nat, m ≤ i ∧
      5 ≤ leadingZeros (calculateHash digest (candidate P R now (sprintfHex (m : Int)))) ∧
      (∀ j : Nat, j < m →
        ¬ 5 ≤ leadingZeros (calculateHash digest (candidate P R now (sprintfHex (j : Int))))) ∧
      ∀ fuel : Nat, m < fuel →
        generateBlock digest P R now fuel = Outcome.returned
          ⟨addInt64 P.Index 1, now, ⟨R.Penulis, R.Checksum⟩,
            calculateHash digest (candidate P R now (sprintfHex (m : Int))),
            P.Hash, 5, sprintfHex (m : Int)⟩ := by
  classical
  have hex : ∃ k : Nat,
      5 ≤ leadingZeros (calculateHash digest (candidate P R now (sprintfHex (k : Int)))) :=
    ⟨i, hv⟩
  refine ⟨Nat.find hex, Nat.find_min' hex hv, Nat.find_spec hex,
    fun j hj => Nat.find_min hex hj, ?_⟩
  intro fuel hf
  have hm : ((Nat.find hex : Nat) : Int) ≤ maxInt64 :=
    le_trans (Int.ofNat_le.mpr (Nat.find_min' hex hv)) hi
  exact mineLoop_least digest fuel (candidate P R now "") 0 (Nat.find hex) rfl (Nat.zero_le _) hm
    (fun j _ hj => Nat.find_min hex hj) (Nat.find_spec hex) (by omega)

theorem generateBlock_least_nonce_witness :
    ∃ m : Nat, m ≤ 2 ∧
      5 ≤ leadingZeros (calculateHash sha256Hex
        (candidate genesis0 ⟨"bob", "000794d7"⟩ requestTime (sprintfHex (m : Int)))) ∧
      (∀ j : Nat, j < m → ¬ 5 ≤ leadingZeros (calculateHash sha256Hex
        (candidate genesis0 ⟨"bob", "000794d7"⟩ requestTime (sprintfHex (j : Int))))) ∧
      ∀ fuel : Nat, m < fuel →
        generateBlock sha256Hex genesis0 ⟨"bob", "000794d7"⟩ requestTime fuel = Outcome.returned
          ⟨addInt64 genesis0.Index 1, requestTime, ⟨"bob", "000794d7"⟩,
            calculateHash sha256Hex
              (candidate genesis0 ⟨"bob", "000794d7"⟩ requestTime (sprintfHex (m : Int))),
            genesis0.Hash, 5, sprintfHex (m : Int)⟩ :=
  generateBlock_least_nonce sha256Hex genesis0 ⟨"bob", "000794d7"⟩ requestTime 2 (by decide)
    (by decide)

theorem string_append_left_cancel {a x y : String} (h : a ++ x = a ++ y) : x = y := by
  have h' := congrArg String.data h
  simp only [String.data_append, List.append_cancel_left_eq] at h'
  exact String.ext h'

theorem string_append_right_cancel {x y c : String} (h : x ++ c = y ++ c) : x = y := by
  have h' := congrArg String.data h
  simp only [String.data_append, List.append_cancel_right_eq] at h'
  exact String.ext h'

theorem zeroPrefixDigest_injective : Function.Injective zeroPrefixDigest :=
  fun _ _ h => string_append_left_cancel h

theorem recordString_moveLastChar (b : Block) : recordString (moveLastChar b) = recordString b := by
  unfold moveLastChar
  cases hl : b.Transactions.Penulis.data.getLast? with
  | none => rfl
  | some c =>
    have hd : b.Transactions.Penulis.data = b.Transactions.Penulis.data.dropLast ++ [c] := by
      have hne : b.Transactions.Penulis.data ≠ [] := by
        intro h0
        rw [h0] at hl
        simp at hl
      rw [List.getLast?_eq_getLast _ hne] at hl
      injection hl with hl
      rw [← hl, List.dropLast_append_getLast]
    apply String.ext
    simp only [recordString, String.data_append]
    conv_rhs => rw [hd]
    simp

/-- C2, at a concrete start-up time: the genesis block has index 0, prevHash `""`,
nonce `""` and the constant difficulty, but its stored hash is the fingerprint of the
zero-value block, the digest of `"0"`, whereas its own fingerprint is the digest of `"0"`
followed by the time stamp; at `startTime` the two differ. -/
theorem genesisBlock_hash_not_own_fingerprint :
    (∀ (digest : String → String) (now : String),
      (genesisBlock digest now).Index = 0 ∧ (genesisBlock digest now).PrevHash = "" ∧
      (genesisBlock digest now).Nonce = "" ∧ (genesisBlock digest now).Difficulty = difficulty ∧
      (genesisBlock digest now).Hash = digest "0" ∧
      calculateHash digest (genesisBlock digest now) = digest ("0" ++ now)) ∧
    genesis0.Hash = "5feceb66ffc86f38d952786c6d696c79c2dbc239dd4e91b46729d73a27fb57e9" ∧
    calculateHash sha256Hex genesis0 =
      "39decd9b33ea8e499e86530040f76644f5ececb591539a9d26d64ac871dc1fcd" ∧
    calculateHash sha256Hex genesis0 ≠ genesis0.Hash := by
  refine ⟨fun digest now => ⟨rfl, rfl, rfl, rfl, rfl, ?_⟩, by decide, by decide, by decide⟩
  have h0 : itoa 0 = "0" := by decide
  simp only [calculateHash, genesisBlock, recordString, h0]
  congr 1
  apply String.ext
  simp [String.data_append]

/-- C5: with a collision-free digest, for every block `b` returned by
`generateBlock(P, R)`, a block that equals `b` except for a different author, or except for
a different checksum, is rejected by `isBlockValid` against `P`. -/
theorem tampered_record_rejected (digest : String → String)
    (hcf : Function.Injective digest) (P : Block) (R : Message) (now : String) (fuel : Nat)
    (b : Block) (h : generateBlock digest P R now fuel = Outcome.returned b) :
    (∀ author : String, author ≠ b.Transactions.Penulis →
      isBlockValid digest { b with Transactions := ⟨author, b.Transactions.Checksum⟩ } P = false) ∧
    (∀ checksum : String, checksum ≠ b.Transactions.Checksum →
      isBlockValid digest { b with Transactions := ⟨b.Transactions.Penulis, checksum⟩ } P = false) := by
  obtain ⟨s, hs, -⟩ := generateBlock_sound digest P R now fuel b h
  subst hs
  constructor
  · intro author hne
    have hneq : calculateHash digest
        { ({ candidate P R now s with Hash := calculateHash digest (candidate P R now s) } : Block)
          with Transactions := ⟨author, R.Checksum⟩ } ≠
        calculateHash digest (candidate P R now s) := by
      intro heq
      have h1 := hcf heq
      simp only [recordString, candidate, String.append_assoc] at h1
      exact hne (string_append_right_cancel (string_append_left_cancel
        (string_append_left_cancel h1)))
    simp only [isBlockValid, candidate] at hneq ⊢
    simp [hneq]
  · intro checksum hne
    have hneq : calculateHash digest
        { ({ candidate P R now s with Hash := calculateHash digest (candidate P R now s) } : Block)
          with Transactions := ⟨R.Penulis, checksum⟩ } ≠
        calculateHash digest (candidate P R now s) := by
      intro heq
      have h1 := hcf heq
      simp only [recordString, candidate, String.append_assoc] at h1
      exact hne (string_append_right_cancel (string_append_left_cancel
        (string_append_left_cancel (string_append_left_cancel h1))))
    simp only [isBlockValid, candidate] at hneq ⊢
    simp [hneq]

theorem tampered_record_rejected_witness :
    generateBlock zeroPrefixDigest toyGenesis ⟨"alice", "c1"⟩ requestTime 1 =
        Outcome.returned toyMined ∧
      isBlockValid zeroPrefixDigest { toyMined with Transactions := ⟨"mallory", "c1"⟩ }
        toyGenesis = false ∧
      isBlockValid zeroPrefixDigest { toyMined with Transactions := ⟨"alice", "c2"⟩ }
        toyGenesis = false :=
  ⟨by decide,
   (tampered_record_rejected zeroPrefixDigest zeroPrefixDigest_injective toyGenesis
      ⟨"alice", "c1"⟩ requestTime 1 toyMined (by decide)).1 "mallory" (by decide),
   (tampered_record_rejected zeroPrefixDigest zeroPrefixDigest_injective toyGenesis
      ⟨"alice", "c1"⟩ requestTime 1 toyMined (by decide)).2 "c2" (by decide)⟩

/-- C10: the fingerprint input is the plain concatenation of the fields, so for every
block `b` with a non-empty author that `isBlockValid` accepts against `P`, the block with
the last character of the author moved to the front of the checksum has a different
record, the same fingerprint, and is accepted against `P` as well. -/
theorem moveLastChar_same_hash (digest : String → String) (b P : Block)
    (hne : b.Transactions.Penulis ≠ "") (hvalid : isBlockValid digest b P = true) :
    (moveLastChar b).Transactions ≠ b.Transactions ∧
    (moveLastChar b).Transactions.Penulis.data = b.Transactions.Penulis.data.dropLast ∧
    (moveLastChar b).Transactions.Checksum.data =
      (b.Transactions.Penulis.data.getLast?).toList ++ b.Transactions.Checksum.data ∧
    calculateHash digest (moveLastChar b) = calculateHash digest b ∧
    isBlockValid digest (moveLastChar b) P = true := by
  have hdata : b.Transactions.Penulis.data ≠ [] := fun h0 => hne (String.ext h0)
  have hhash : calculateHash digest (moveLastChar b) = calculateHash digest b := by
    simp only [calculateHash, recordString_moveLastChar]
  obtain ⟨c, hc⟩ : ∃ c, b.Transactions.Penulis.data.getLast? = some c :=
    ⟨_, List.getLast?_eq_getLast _ hdata⟩
  have hm : moveLastChar b = { b with Transactions :=
      ⟨⟨b.Transactions.Penulis.data.dropLast⟩, ⟨c :: b.Transactions.Checksum.data⟩⟩ } := by
    simp only [moveLastChar, hc]
  refine ⟨?_, ?_, ?_, hhash, ?_⟩
  · intro heq
    have hlen := congrArg (fun t : Transaction => t.Penulis.data.length) heq
    rw [hm] at hlen
    simp only [List.length_dropLast] at hlen
    have : 0 < b.Transactions.Penulis.data.length := List.length_pos.mpr hdata
    omega
  · rw [hm]
  · rw [hm, hc]
    rfl
  · have h3 := (isBlockValid_eq_true digest b P).1 hvalid
    rw [isBlockValid_eq_true digest (moveLastChar b) P, hhash]
    rw [hm]
    exact h3

theorem moveLastChar_same_hash_witness :
    moveLastChar minedBob = { minedBob with Transactions := ⟨"bo", "b000794d7"⟩ } ∧
    (moveLastChar minedBob).Transactions ≠ minedBob.Transactions ∧
    calculateHash sha256Hex (moveLastChar minedBob) = calculateHash sha256Hex minedBob ∧
    isBlockValid sha256Hex (moveLastChar minedBob) genesis0 = true :=
  have h := moveLastChar_same_hash sha256Hex minedBob genesis0 (by decide) (by decide)
  ⟨by decide, h.1, h.2.2.2.1, h.2.2.2.2⟩

theorem appendAll_append (digest : String → String) (cs₁ cs₂ : List Block) :
    ∀ chain : List Block, appendAll digest chain (cs₁ ++ cs₂) =
      (appendAll digest chain cs₁).bind (fun l => appendAll digest l cs₂) := by
  induction cs₁ with
  | nil => intro chain; simp [appendAll]
  | cons c cs ih =>
    intro chain
    simp only [List.cons_append, appendAll]
    cases appendBlock digest chain c with
    | none => simp
    | some chain1 => simpa using ih chain1

theorem appendAll_invariant (digest : String → String) (cs : List Block) :
    ∀ chain : List Block, chain ≠ [] → List.Chain' Linked chain →
      ∃ l : List Block, appendAll digest chain cs = some l ∧ chain <+: l ∧ l ≠ [] ∧
        l.length = chain.length + acceptedCount digest chain cs ∧ List.Chain' Linked l := by
  induction cs with
  | nil =>
    intro chain hne hch
    exact ⟨chain, rfl, List.prefix_refl _, hne, by simp [acceptedCount], hch⟩
  | cons c cs ih =>
    intro chain hne hch
    obtain ⟨t, ht⟩ : ∃ t, chain.getLast? = some t := ⟨_, List.getLast?_eq_getLast _ hne⟩
    by_cases hv : isBlockValid digest c t = true
    · have hlink : Linked t c := by
        have h3 := (isBlockValid_eq_true digest c t).1 hv
        exact ⟨h3.1.symm, h3.2.1.symm⟩
      have hch' : List.Chain' Linked (chain ++ [c]) := by
        refine List.Chain'.append hch (List.chain'_singleton c) ?_
        intro x hx y hy
        rw [ht] at hx
        simp only [Option.mem_def, Option.some.injEq, List.head?_cons] at hx hy
        subst hx hy
        exact hlink
      obtain ⟨l, hl, hpre, hlne, hlen, hlch⟩ := ih (chain ++ [c]) (by simp) hch'
      refine ⟨l, ?_, (List.prefix_append chain [c]).trans hpre, hlne, ?_, hlch⟩
      · simp only [appendAll, appendBlock, ht, hv, if_true]
        exact hl
      · simp only [acceptedCount, ht, hv, if_true]
        rw [hlen, List.length_append, List.length_singleton]
        omega
    · obtain ⟨l, hl, hpre, hlne, hlen, hlch⟩ := ih chain hne hch
      refine ⟨l, ?_, hpre, hlne, ?_, hlch⟩
      · simp only [appendAll, appendBlock, ht, hv]
        exact hl
      · simp only [acceptedCount, ht, hv]
        exact hlen

/-- C6: offer any sequence of candidates to the ledger that starts as the single genesis
block, one append step each (the candidate is appended if `isBlockValid` accepts it against
the last block, otherwise the ledger is unchanged). The ledger after a part `cs₁` of the
candidates is a prefix of the ledger after all of them (earlier blocks are never modified
or removed); after `N` accepted candidates the ledger has exactly `N + 1` blocks; and every
block at a position `i + 1` has index `ledger[i].Index + 1` and prevHash `ledger[i].Hash`. -/
theorem appendAll_from_genesis (digest : String → String) (now : String)
    (cs₁ cs₂ : List Block) :
    ∃ l₁ l₂ : List Block,
      appendAll digest [genesisBlock digest now] cs₁ = some l₁ ∧
      appendAll digest [genesisBlock digest now] (cs₁ ++ cs₂) = some l₂ ∧
      [genesisBlock digest now] <+: l₁ ∧ l₁ <+: l₂ ∧
      l₂.length = acceptedCount digest [genesisBlock digest now] (cs₁ ++ cs₂) + 1 ∧
      ∀ (i : Nat) (h : i + 1 < l₂.length),
        l₂[i + 1].Index = addInt64 l₂[i].Index 1 ∧ l₂[i + 1].PrevHash = l₂[i].Hash := by
  obtain ⟨l₁, h₁, hp₁, hne₁, -, hch₁⟩ :=
    appendAll_invariant digest cs₁ [genesisBlock digest now] (by simp) (List.chain'_singleton _)
  obtain ⟨l₂, h₂, hp₂, -, -, -⟩ := appendAll_invariant digest cs₂ l₁ hne₁ hch₁
  obtain ⟨l, h, -, -, hlen, hch⟩ :=
    appendAll_invariant digest (cs₁ ++ cs₂) [genesisBlock digest now] (by simp)
      (List.chain'_singleton _)
  have hl : l = l₂ := by
    rw [appendAll_append, h₁] at h
    change appendAll digest l₁ cs₂ = some l at h
    rw [h₂] at h
    exact (Option.some.inj h).symm
  subst hl
  refine ⟨l₁, l, h₁, h, hp₁, hp₂, ?_, ?_⟩
  · rw [hlen, List.length_singleton]
    omega
  · intro i hi
    have := List.chain'_iff_get.1 hch i (by omega)
    simpa [Linked] using this

theorem handleCheckLoop_notFound (chain : List Block) (m : Message) (n : Nat) :
    n ≤ chain.length →
    (∀ (j : Nat) (hj : j < chain.length), j < n →
      chain[j].Transactions.Checksum ≠ m.Checksum) →
    handleCheckLoop chain m n = some ⟨404, "Error", ""⟩ := by
  induction n with
  | zero => intro _ _; rfl
  | succ n ih =>
    intro hn hno
    have hlt : n < chain.length := by omega
    simp only [handleCheckLoop, List.getElem?_eq_getElem hlt, hno n hlt (by omega), if_false]
    exact ih (by omega) (fun j hj hjn => hno j hj (by omega))

theorem handleCheckLoop_found (chain : List Block) (m : Message) (k : Nat)
    (hk : k < chain.length) (hmatch : chain[k].Transactions.Checksum = m.Checksum) (n : Nat) :
    k < n → n ≤ chain.length →
    (∀ (j : Nat) (hj : j < chain.length), k < j → j < n →
      chain[j].Transactions.Checksum ≠ m.Checksum) →
    handleCheckLoop chain m n = some ⟨200, "Succes", chain[k].Transactions.Penulis⟩ := by
  induction n with
  | zero => intro h; omega
  | succ n ih =>
    intro hkn hn hno
    have hlt : n < chain.length := by omega
    by_cases hkn' : k = n
    · subst hkn'
      simp only [handleCheckLoop, List.getElem?_eq_getElem hlt, hmatch, if_true]
    · simp only [handleCheckLoop, List.getElem?_eq_getElem hlt,
        hno n hlt (by omega) (by omega), if_false]
      exact ih (by omega) (by omega) (fun j hj hkj hjn => hno j hj hkj (by omega))

/-- C7: the lookup loop of `handleCheck` answers with the author of the block at the
greatest position whose record checksum equals the queried one, and it answers with the
not-found result (code 404) exactly when no block of the ledger has that checksum. -/
theorem handleCheck_spec (chain : List Block) (m : Message) :
    (∀ (k : Nat) (hk : k < chain.length), chain[k].Transactions.Checksum = m.Checksum →
      (∀ (j : Nat) (hj : j < chain.length), k < j →
        chain[j].Transactions.Checksum ≠ m.Checksum) →
      handleCheck chain m = some ⟨200, "Succes", chain[k].Transactions.Penulis⟩) ∧
    (∃ r : Response, handleCheck chain m = some r ∧
      (r.Code = 404 ↔ ∀ b ∈ chain, b.Transactions.Checksum ≠ m.Checksum) ∧
      (r = ⟨404, "Error", ""⟩ ↔ ∀ b ∈ chain, b.Transactions.Checksum ≠ m.Checksum)) := by
  classical
  have hfound : ∀ (k : Nat) (hk : k < chain.length),
      chain[k].Transactions.Checksum = m.Checksum →
      (∀ (j : Nat) (hj : j < chain.length), k < j →
        chain[j].Transactions.Checksum ≠ m.Checksum) →
      handleCheck chain m = some ⟨200, "Succes", chain[k].Transactions.Penulis⟩ :=
    fun k hk hmatch hlast =>
      handleCheckLoop_found chain m k hk hmatch chain.length hk (le_refl _)
        (fun j hj hkj _ => hlast j hj hkj)
  refine ⟨hfound, ?_⟩
  by_cases hex : ∃ k : Nat, ∃ hk : k < chain.length,
      chain[k].Transactions.Checksum = m.Checksum
  · -- some block matches: take the greatest matching position
    have hex' : ∃ d : Nat, ∃ hd : chain.length - 1 - d < chain.length,
        chain[chain.length - 1 - d].Transactions.Checksum = m.Checksum := by
      obtain ⟨k, hk, hmatch⟩ := hex
      refine ⟨chain.length - 1 - k, by omega, ?_⟩
      have : chain.length - 1 - (chain.length - 1 - k) = k := by omega
      simp only [this]
      exact hmatch
    obtain ⟨hd, hmatch⟩ := Nat.find_spec hex'
    have hlast : ∀ (j : Nat) (hj : j < chain.length), chain.length - 1 - Nat.find hex' < j →
        chain[j].Transactions.Checksum ≠ m.Checksum := by
      intro j hj hlt heq
      have hmin := Nat.find_min hex' (m := chain.length - 1 - j) (by omega)
      apply hmin
      have : chain.length - 1 - (chain.length - 1 - j) = j := by omega
      refine ⟨by omega, ?_⟩
      simp only [this]
      exact heq
    refine ⟨_, hfound _ hd hmatch hlast, ?_, ?_⟩
    · constructor
      · intro h; simp at h
      · intro hno
        exact absurd hmatch (hno _ (List.getElem_mem _))
    · constructor
      · intro h; simp at h
      · intro hno
        exact absurd hmatch (hno _ (List.getElem_mem _))
  · have hno : ∀ b ∈ chain, b.Transactions.Checksum ≠ m.Checksum := by
      intro b hb heq
      obtain ⟨k, hk, rfl⟩ := List.getElem_of_mem hb
      exact hex ⟨k, hk, heq⟩
    refine ⟨_, handleCheckLoop_notFound chain m chain.length (le_refl _)
      (fun j hj _ => hno _ (List.getElem_mem _)), ?_, ?_⟩
    · exact ⟨fun _ => hno, fun _ => rfl⟩
    · exact ⟨fun _ => hno, fun _ => rfl⟩

theorem handleCheck_spec_witness :
    handleCheck ledgerWithDuplicate ⟨"", "f2"⟩ = some ⟨200, "Succes", "d"⟩ :=
  (handleCheck_spec ledgerWithDuplicate ⟨"", "f2"⟩).1 4 (by decide) (by decide) (by decide)

/-- C9, the failing schedule: with two requests in flight on the ledger `[genesis0]`, the
schedule in which both mine (one after the other, under the mutex), both pass the test
`isBlockValid` against the tip, and then both append, leaves a ledger that holds two
blocks mined against the same tip; the second request is not rejected. When the first
request appends before the second one tests, the second is rejected. -/
theorem concurrent_append_both_accepted :
    runSchedule sha256Hex 1 twoRequests [0, 1, 0, 1, 0, 1] =
      ⟨[genesis0, minedAlice, minedCarol], [Request.done, Request.done]⟩ ∧
    minedAlice.PrevHash = genesis0.Hash ∧ minedCarol.PrevHash = genesis0.Hash ∧
    minedCarol.PrevHash ≠ minedAlice.Hash ∧ minedCarol.Index ≠ addInt64 minedAlice.Index 1 ∧
    runSchedule sha256Hex 1 twoRequests [0, 1, 0, 0, 1, 1] =
      ⟨[genesis0, minedAlice], [Request.done, Request.done]⟩ := by
  decide

end Blockchain
